import Mathlib

/-!
# Verification of `DECTEify.py` (SQL-Utility)

A shallow embedding of the CTE-inlining pipeline of `DECTEify.py`.
Text is modelled as `List Char` internally, with `String`-level wrappers
carrying the source's function names.  Each Python regex is translated into
an explicit scanner that reproduces the regex engine's leftmost-match and
greedy/backtracking behaviour for that particular pattern.
-/

namespace DECTEify

/-- Python `str.isspace`-style whitespace as used by `\s` and `str.strip()`
(ASCII subset: space, tab, newline, carriage return, form feed, vertical tab). -/
def isPySpace (c : Char) : Bool :=
  c = ' ' || c = '\t' || c = '\n' || c = '\r' || c = '\x0c' || c = '\x0b'

/-- Python regex word character `\w` (ASCII subset: alphanumeric or underscore). -/
def isWordChar (c : Char) : Bool :=
  c.isAlphanum || c = '_'

/-- Case-insensitive character comparison (`re.IGNORECASE`, ASCII). -/
def ciEq (a b : Char) : Bool :=
  a.toLower = b.toLower

/-- Strip `pat` from the front of `l`, comparing case-insensitively;
returns the remainder on success. -/
def stripCI : List Char → List Char → Option (List Char)
  | [], l => some l
  | _ :: _, [] => none
  | p :: ps, c :: cs => if ciEq p c then stripCI ps cs else none

/-- `\b` on the left of a pattern that starts with a word character:
the previous character (if any) must not be a word character. -/
def boundaryL (prev : Option Char) : Bool :=
  match prev with
  | none => true
  | some c => !isWordChar c

/-- `\b` on the right of a pattern that ends with a word character:
the next character (if any) must not be a word character. -/
def boundaryR (l : List Char) : Bool :=
  match l with
  | [] => true
  | c :: _ => !isWordChar c

/-- Scanner for `re.search(r'\b' + pat + r'\b', text, re.IGNORECASE)` where
`pat` consists of word characters.  Returns the split of the text at the
first standalone occurrence: `(text before the match, text from the match on)`.
`prev` is the character just before the current position (for `\b`). -/
def findWordAux (pat : List Char) (prev : Option Char) : List Char → Option (List Char × List Char)
  | [] => none
  | c :: cs =>
    if boundaryL prev &&
       (match stripCI pat (c :: cs) with
        | some r => boundaryR r
        | none => false) then
      some ([], c :: cs)
    else
      (findWordAux pat (some c) cs).map (fun p => (c :: p.1, p.2))

/-- Boolean standalone-word search (used by `find_dependencies`). -/
def wordSearch (pat : List Char) (l : List Char) : Bool :=
  (findWordAux pat none l).isSome

/-- `re.sub(r'[ \t]+', ' ', text)`: collapse runs of spaces/tabs to one space.
The flag records whether we are inside such a run. -/
def normWsAux : Bool → List Char → List Char
  | _, [] => []
  | inRun, c :: cs =>
    if c = ' ' || c = '\t' then
      if inRun then normWsAux true cs else ' ' :: normWsAux true cs
    else c :: normWsAux false cs

def normWs (l : List Char) : List Char :=
  normWsAux false l

/-- Python `str.strip()`. -/
def pyStrip (l : List Char) : List Char :=
  ((l.dropWhile isPySpace).reverse.dropWhile isPySpace).reverse

/-- The character-by-character scan of `split_with_and_select`: starting at the
`WITH`, track parenthesis depth; stop at the first position where, after
processing the current character, the depth is zero and the upper-cased text
at this position starts with `SELECT`.  Returns `(before SELECT, from SELECT)`. -/
def scanSelect (d : Int) : List Char → Option (List Char × List Char)
  | [] => none
  | c :: cs =>
    let d' := if c = '(' then d + 1 else if c = ')' then d - 1 else d
    if d' = 0 && (stripCI "SELECT".data (c :: cs)).isSome then
      some ([], c :: cs)
    else
      (scanSelect d' cs).map (fun p => (c :: p.1, p.2))

/-- `split_with_and_select` on character lists. -/
def splitWithAndSelectL (sqlText : List Char) : List Char × List Char :=
  let t := normWs sqlText
  match findWordAux "WITH".data none t with
  | none => ([], pyStrip t)
  | some (_, fromWith) =>
    match scanSelect 0 fromWith with
    | none => (pyStrip fromWith, [])
    | some (beforeSel, fromSel) => (pyStrip beforeSel, pyStrip fromSel)

/-- `re.sub(r'^\s*WITH\s+', '', with_block, flags=re.IGNORECASE)` followed by
`.strip()`: remove leading whitespace, a case-insensitive `WITH`, and the
(mandatory, maximal) whitespace after it; if the pattern does not match, the
text is left unchanged.  Then strip. -/
def stripLeadingWith (w : List Char) : List Char :=
  let w1 := w.dropWhile isPySpace
  let stripped :=
    match stripCI "WITH".data w1 with
    | some r =>
      match r with
      | [] => w
      | c :: _ => if isPySpace c then r.dropWhile isPySpace else w
    | none => w
  pyStrip stripped

/-- Python `str.rstrip(',')` composed after `str.strip()`, applied to every
comma-separated chunk of the `WITH` block. -/
def trimChunk (l : List Char) : List Char :=
  ((pyStrip l).reverse.dropWhile (fun c => c = ',')).reverse

/-- Split on commas at parenthesis depth zero.  Returns the pieces before each
top-level comma (in order) and the final remainder. -/
def splitTopAux (d : Int) (acc : List Char) : List Char → List (List Char) × List Char
  | [] => ([], acc.reverse)
  | c :: cs =>
    let d' := if c = '(' then d + 1 else if c = ')' then d - 1 else d
    if d' = 0 && c = ',' then
      let r := splitTopAux 0 [] cs
      (acc.reverse :: r.1, r.2)
    else
      splitTopAux d' (c :: acc) cs

/-- Top-level comma split of the `WITH` block: every piece before a comma is
kept (trimmed) unconditionally; the final chunk is kept only if nonempty after
trimming — mirroring the Python loop. -/
def splitTopCommas (l : List Char) : List (List Char) :=
  let r := splitTopAux 0 [] l
  r.1.map trimChunk ++ (if trimChunk r.2 = [] then [] else [trimChunk r.2])

/-- `re.compile(r'^([\w\d_]+)\s+AS\s*\((.*)\)$', re.IGNORECASE | re.DOTALL).match`:
an identifier, whitespace, `AS`, optional whitespace, `(`, then a greedy body up
to a final `)` that must end the chunk (`$` also matches just before one trailing
newline).  Returns `(lower-cased name, stripped body)`. -/
def parseChunk (ch : List Char) : Option (List Char × List Char) :=
  let name := ch.takeWhile isWordChar
  if name = [] then none
  else
    let r0 := ch.dropWhile isWordChar
    let ws := r0.takeWhile isPySpace
    if ws = [] then none
    else
      match stripCI "AS".data (r0.dropWhile isPySpace) with
      | none => none
      | some r1 =>
        match r1.dropWhile isPySpace with
        | '(' :: r2 =>
          if r2.getLast? = some ')' then
            some (name.map Char.toLower, pyStrip (r2.dropLast))
          else if (r2.reverse.take 2) = ['\n', ')'] then
            some (name.map Char.toLower, pyStrip (r2.dropLast.dropLast))
          else none
        | _ => none

/-- Insert/overwrite a key in an association list, preserving the position of
an existing key (Python `dict` assignment). -/
def upsert (m : List (List Char × List Char)) (k v : List Char) : List (List Char × List Char) :=
  match m with
  | [] => [(k, v)]
  | (k', v') :: t => if k' = k then (k, v) :: t else (k', v') :: upsert t k v

/-- `extract_ctes` on character lists: returns the name→body association list
(in insertion order, later duplicates overwriting) and the main `SELECT`. -/
def extractCtesL (sqlText : List Char) : List (List Char × List Char) × List Char :=
  let p := splitWithAndSelectL sqlText
  if p.1 = [] then ([], pyStrip sqlText)
  else
    let chunks := splitTopCommas (stripLeadingWith p.1)
    (chunks.foldl (fun m ch =>
      match parseChunk ch with
      | none => m
      | some nb => upsert m nb.1 nb.2) [], p.2)

/-- First-match association-list lookup (Python `dict` access). -/
def lookupA {α : Type} : List (List Char × α) → List Char → Option α
  | [], _ => none
  | (k, v) :: t, key => if k = key then some v else lookupA t key

/-- `find_dependencies`: for each CTE, the other CTE names that occur as a
standalone word (case-insensitively) in its body.  Entries with no
dependencies are absent (the Python `defaultdict` is only populated on `add`). -/
def findDependenciesL (ctes : List (List Char × List Char)) : List (List Char × List (List Char)) :=
  let names := ctes.map Prod.fst
  (ctes.map (fun p =>
    (p.1, names.filter (fun o => o ≠ p.1 && wordSearch (o.map Char.toUpper) (p.2.map Char.toUpper))))).filter
    (fun e => !e.2.isEmpty)

/-- Dependencies of `n` in a dependency map (`[]` when absent). -/
def depsOf (dm : List (List Char × List (List Char))) (n : List Char) : List (List Char) :=
  (lookupA dm n).getD []

/-- Add an element at the end of the list if not already present
(insertion-ordered model of a Python `set`). -/
def addIfNew (l : List (List Char)) (x : List Char) : List (List Char) :=
  if x ∈ l then l else l ++ [x]

/-- Integer lookup in the in-degree table (`defaultdict(int)`: default 0). -/
def lookupInt (ind : List (List Char × Int)) (k : List Char) : Int :=
  (lookupA ind k).getD 0

/-- Replace the value of the first occurrence of `k` (append if absent). -/
def updateA (ind : List (List Char × Int)) (k : List Char) (v : Int) : List (List Char × Int) :=
  match ind with
  | [] => [(k, v)]
  | (k', v') :: t => if k' = k then (k, v) :: t else (k', v') :: updateA t k v

/-- The inner loop of Kahn's algorithm: after popping `node`, walk the
dependency map in order; every CTE whose dependency set contains `node` has
its in-degree decremented, and is enqueued when it reaches exactly zero. -/
def relaxGo (node : List Char) :
    List (List Char × List (List Char)) → List (List Char × Int) → List (List Char) →
    List (List Char × Int) × List (List Char)
  | [], ind, q => (ind, q)
  | (c, deps) :: rest, ind, q =>
    if node ∈ deps then
      let v := lookupInt ind c - 1
      relaxGo node rest (updateA ind c v) (if v = 0 then q ++ [c] else q)
    else relaxGo node rest ind q

/-- The fueled `while queue` loop of `topological_sort_ctes`.  The fuel chosen
by `topological_sort_ctes` always suffices (the measure
`queue length + Σ max(in-degree, 0)` strictly decreases each iteration). -/
def topoLoop (dm : List (List Char × List (List Char))) :
    Nat → List (List Char × Int) → List (List Char) → List (List Char) → List (List Char)
  | 0, _, _, out => out
  | _ + 1, _, [], out => out
  | fuel + 1, ind, node :: rest, out =>
    let r := relaxGo node dm ind rest
    topoLoop dm fuel r.1 r.2 (out ++ [node])

/-- `all_ctes`: the keys of the dependency map together with every name that
appears in a dependency set (modelled as an insertion-ordered duplicate-free
list, one admissible iteration order of the Python `set`). -/
def allCtesOf (dm : List (List Char × List (List Char))) : List (List Char) :=
  dm.foldl (fun acc e => e.2.foldl addIfNew acc) ((dm.map Prod.fst).foldl addIfNew [])

/-- The initial in-degree table: each CTE's in-degree is the number of its
dependencies (`defaultdict(int)` default 0 for the rest). -/
def indZeroOf (dm : List (List Char × List (List Char))) : List (List Char × Int) :=
  (allCtesOf dm).map (fun n => (n, ((depsOf dm n).length : Int)))

/-- The initial queue: the CTEs whose in-degree is zero. -/
def queueZeroOf (dm : List (List Char × List (List Char))) : List (List Char) :=
  (allCtesOf dm).filter (fun n => lookupInt (indZeroOf dm) n = 0)

/-- `topological_sort_ctes` on character lists. -/
def topologicalSortCtesL (dm : List (List Char × List (List Char))) : List (List Char) :=
  let fuel := (queueZeroOf dm).length + ((indZeroOf dm).foldl (fun s e => s + e.2.toNat) 0) + 1
  (topoLoop dm fuel (indZeroOf dm) (queueZeroOf dm) []).filter
    (fun s => decide (s ∈ allCtesOf dm))

/-- Strip the (case-insensitive) CTE name from the front of `l`. -/
def stripName (name l : List Char) : Option (List Char) :=
  stripCI name l

/-- The optional-alias tail `(?:\s+(AS\s+)?(\w+))?` of both inlining patterns,
with the regex engine's backtracking: after mandatory whitespace, try
`AS` + whitespace + word; if that fails, the word may itself start with the
letters `AS`; if no word follows the whitespace, the whole group is skipped
and the trailing text starts at the whitespace. -/
def matchAliasRest (r : List Char) : Option (List Char) × List Char :=
  if r.takeWhile isPySpace = [] then (none, r)
  else
    let r1 := r.dropWhile isPySpace
    let noAs : Option (List Char) × List Char :=
      let w := r1.takeWhile isWordChar
      if w = [] then (none, r) else (some w, r1.dropWhile isWordChar)
    match stripCI "AS".data r1 with
    | none => noAs
    | some r2 =>
      if r2.takeWhile isPySpace = [] then noAs
      else
        let r3 := r2.dropWhile isPySpace
        let w := r3.takeWhile isWordChar
        if w = [] then noAs else (some w, r3.dropWhile isWordChar)

/-- Consume one keyword word (case-insensitive) followed by mandatory
whitespace, returning `(matched characters, remainder)`. -/
def eatWordWs (word : List Char) (l : List Char) : Option (List Char × List Char) :=
  match stripCI word l with
  | none => none
  | some r =>
    let sp := r.takeWhile isPySpace
    if sp = [] then none
    else some (l.take word.length ++ sp, r.dropWhile isPySpace)

/-- Consume a whole keyword alternative (a sequence of words, each followed by
mandatory whitespace), e.g. `INNER\s+JOIN\s+`. -/
def eatKeyword : List (List Char) → List Char → Option (List Char × List Char)
  | [], l => some ([], l)
  | w :: ws, l =>
    match eatWordWs w l with
    | none => none
    | some (m, r) =>
      match eatKeyword ws r with
      | none => none
      | some (m', r') => some (m ++ m', r')

/-- The keyword alternatives of the FROM/JOIN pattern, in the order the
alternation tries them. -/
def joinAlternatives : List (List (List Char)) :=
  [["FROM".data], ["JOIN".data], ["INNER".data, "JOIN".data], ["LEFT".data, "JOIN".data],
   ["RIGHT".data, "JOIN".data], ["FULL".data, "JOIN".data]]

/-- Try the FROM/JOIN pattern at the current position: some keyword
alternative, the CTE name, the optional alias group, and the trailing text
(`(.*)` with DOTALL consumes to the end).  `prev` carries the previous
character for the leading `\b`. -/
def tryPat1At (name : List Char) (prev : Option Char) (l : List Char) :
    Option (List Char × Option (List Char) × List Char) :=
  if !boundaryL prev then none
  else
    joinAlternatives.foldl (fun acc alt =>
      match acc with
      | some r => some r
      | none =>
        match eatKeyword alt l with
        | none => none
        | some (kw, r) =>
          match stripName name r with
          | none => none
          | some r' =>
            let ar := matchAliasRest r'
            some (kw, ar.1, ar.2)) none

/-- Leftmost match of the FROM/JOIN pattern: returns
`(text before the match, matched keyword, optional alias, trailing text)`. -/
def scanPat1 (name : List Char) (prev : Option Char) : List Char →
    Option (List Char × List Char × Option (List Char) × List Char)
  | [] => none
  | c :: cs =>
    match tryPat1At name prev (c :: cs) with
    | some (kw, al, rest) => some ([], kw, al, rest)
    | none => (scanPat1 name (some c) cs).map (fun p => (c :: p.1, p.2))

/-- Try the subselect pattern `(\bFROM\s+\(?)\s*name(?:\s+(AS\s+)?(\w+))?(.*)`
at the current position.  Group 1 is `FROM`, its whitespace, and the optional
opening parenthesis; whitespace matched by `\s*` is not part of any group.
If the name fails after consuming `(`, the engine backtracks and retries
without it. -/
def tryPat2At (name : List Char) (prev : Option Char) (l : List Char) :
    Option (List Char × Option (List Char) × List Char) :=
  if !boundaryL prev then none
  else
    match eatWordWs "FROM".data l with
    | none => none
    | some (kw, r) =>
      let withParen :=
        match r with
        | '(' :: r1 =>
          match stripName name (r1.dropWhile isPySpace) with
          | none => none
          | some r' =>
            let ar := matchAliasRest r'
            some (kw ++ ['('], ar.1, ar.2)
        | _ => none
      match withParen with
      | some res => some res
      | none =>
        match stripName name (r.dropWhile isPySpace) with
        | none => none
        | some r' =>
          let ar := matchAliasRest r'
          some (kw, ar.1, ar.2)

/-- Leftmost match of the subselect pattern. -/
def scanPat2 (name : List Char) (prev : Option Char) : List Char →
    Option (List Char × List Char × Option (List Char) × List Char)
  | [] => none
  | c :: cs =>
    match tryPat2At name prev (c :: cs) with
    | some (kw, al, rest) => some ([], kw, al, rest)
    | none => (scanPat2 name (some c) cs).map (fun p => (c :: p.1, p.2))

/-- The replacement text both patterns produce:
`keyword ((\n body \n)) AS alias trailing`, using the user alias when the
optional group matched and the CTE name otherwise. -/
def buildRepl (name body kw : List Char) (al : Option (List Char)) (rest : List Char) : List Char :=
  kw ++ "((\n".data ++ body ++ "\n)) AS ".data ++ (match al with | some a => a | none => name) ++ rest

/-- `inline_cte` on character lists: apply the FROM/JOIN substitution, then
the subselect substitution, to the (single) leftmost match of each pattern
(both patterns end in `(.*)`, so a match always extends to the end of the
text and `re.sub` performs at most one replacement per pattern). -/
def inlineCteL (target name body : List Char) : List Char :=
  let t1 :=
    match scanPat1 name none target with
    | none => target
    | some (pre, kw, al, rest) => pre ++ buildRepl name body kw al rest
  match scanPat2 name none t1 with
  | none => t1
  | some (pre, kw, al, rest) => pre ++ buildRepl name body kw al rest

/-- Attempt `\s*/\s*(\S+)` on `rem`: skip whitespace, expect `/`, skip
whitespace, take a maximal nonempty run of non-whitespace.  Returns
`(divisor, remainder)`. -/
def trySlash (rem : List Char) : Option (List Char × List Char) :=
  match rem.dropWhile isPySpace with
  | '/' :: r2 =>
    let r3 := r2.dropWhile isPySpace
    let run := r3.takeWhile (fun c => !isPySpace c)
    if run = [] then none else some (run, r3.dropWhile (fun c => !isPySpace c))
  | _ => none

/-- Greedy backtracking of `(\S+)` in `(\S+)\s*/\s*(\S+)`: with `R` the maximal
non-whitespace run at the match position and `T` the text after it, try the
left group at lengths `|R|, |R|-1, …, 1`.  Returns `(left, right, remainder)`. -/
def tryDivLens (R T : List Char) : Nat → Option (List Char × List Char × List Char)
  | 0 => none
  | k + 1 =>
    match trySlash (R.drop (k + 1) ++ T) with
    | some (right, rest) => some (R.take (k + 1), right, rest)
    | none => tryDivLens R T k

/-- Try the division pattern at the current position. -/
def tryDivAt (l : List Char) : Option (List Char × List Char × List Char) :=
  let R := l.takeWhile (fun c => !isPySpace c)
  tryDivLens R (l.drop R.length) R.length

/-- The `re.sub` loop of `fix_division_by_zero`: scan left to right; on a match
emit `left / NULLIF(right, 0)` and continue after the match, else emit the
character and advance.  The fuel (initialised to the text length) bounds the
recursion; every step consumes at least one character, so it never runs out. -/
def fixDivGo : Nat → List Char → List Char
  | 0, l => l
  | _ + 1, [] => []
  | fuel + 1, c :: cs =>
    if isPySpace c then c :: fixDivGo fuel cs
    else
      match tryDivAt (c :: cs) with
      | some (left, right, rest) =>
        left ++ " / NULLIF(".data ++ right ++ ", 0)".data ++ fixDivGo fuel rest
      | none => c :: fixDivGo fuel cs

/-- `fix_division_by_zero` on character lists. -/
def fixDivisionByZeroL (l : List Char) : List Char :=
  fixDivGo l.length l

/-- One pass of the orchestrator's inlining loop body: inline `cte` into the
running main query and into every other CTE body. -/
def inlineStep (sorted : List (List Char)) (st : List Char × List (List Char × List Char))
    (cte : List Char) : List Char × List (List Char × List Char) :=
  match lookupA st.2 cte with
  | none => st
  | some body =>
    let fs' := inlineCteL st.1 cte body
    let cm' := sorted.foldl (fun m other =>
      if other = cte then m
      else
        match lookupA m other with
        | none => m
        | some ob => upsert m other (inlineCteL ob cte body)) st.2
    (fs', cm')

/-- `inline_all_ctes` on character lists. -/
def inlineAllCtesL (sqlText : List Char) : List Char :=
  let p := extractCtesL sqlText
  if p.1 = [] then pyStrip (fixDivisionByZeroL sqlText)
  else
    let dm0 := findDependenciesL p.1
    let dm := p.1.foldl (fun m e => if (lookupA m e.1).isSome then m else m ++ [(e.1, [])]) dm0
    let sorted := topologicalSortCtesL dm
    let final := sorted.foldl (inlineStep sorted) (p.2, p.1)
    pyStrip (fixDivisionByZeroL final.1)

/-! ## String-level wrappers with the source's names -/

def split_with_and_select (s : String) : String × String :=
  let p := splitWithAndSelectL s.data
  (String.mk p.1, String.mk p.2)

def extract_ctes (s : String) : List (String × String) × String :=
  let p := extractCtesL s.data
  (p.1.map (fun e => (String.mk e.1, String.mk e.2)), String.mk p.2)

def find_dependencies (ctes : List (String × String)) : List (String × List String) :=
  (findDependenciesL (ctes.map (fun e => (e.1.data, e.2.data)))).map
    (fun e => (String.mk e.1, e.2.map String.mk))

def topological_sort_ctes (dm : List (String × List String)) : List String :=
  (topologicalSortCtesL (dm.map (fun e => (e.1.data, e.2.map String.data)))).map String.mk

def inline_cte (target cteName cteBody : String) : String :=
  String.mk (inlineCteL target.data cteName.data cteBody.data)

def fix_division_by_zero (s : String) : String :=
  String.mk (fixDivisionByZeroL s.data)

def inline_all_ctes (s : String) : String :=
  String.mk (inlineAllCtesL s.data)

/-- Python `str.strip()` at `String` level (the trimming `inline_all_ctes`
applies to its result). -/
def pyStripS (s : String) : String :=
  String.mk (pyStrip s.data)

/-! ## Claim-side predicates

`topLevelWordAux` is modelled from the spec's words, not from the source:
the glossary defines *top-level (depth-zero)* as "occurring outside any
parenthesized sub-expression", and several claims speak of a "standalone
top-level `WITH` keyword".  It is used only to state claims C1 and C2. -/

/-- Standalone-word occurrence at parenthesis depth zero: scans tracking
depth (before the current character) and checks the word with `\b`-style
boundaries on both sides, case-insensitively. -/
def topLevelWordAux (pat : List Char) (d : Int) (prev : Option Char) : List Char → Bool
  | [] => false
  | c :: cs =>
    (d = 0 && boundaryL prev &&
      (match stripCI pat (c :: cs) with
       | some r => boundaryR r
       | none => false))
    || topLevelWordAux pat (if c = '(' then d + 1 else if c = ')' then d - 1 else d) (some c) cs

/-- Modelled from the spec: a standalone (word-boundary delimited,
case-insensitive) occurrence of `pat` at parenthesis depth zero of `text`. -/
def topLevelWordOccurs (pat text : String) : Bool :=
  topLevelWordAux pat.data 0 none text.data

/-- Substring containment on character lists. -/
def listContains (pat : List Char) : List Char → Bool
  | [] => pat.isEmpty
  | c :: cs => pat.isPrefixOf (c :: cs) || listContains pat cs

/-- Substring containment at `String` level. -/
def containsSub (pat s : String) : Bool :=
  listContains pat.data s.data

/-- Number of (possibly overlapping) occurrences of `pat` in a list. -/
def countSubAux (pat : List Char) : List Char → Nat
  | [] => 0
  | c :: cs => (if pat.isPrefixOf (c :: cs) then 1 else 0) + countSubAux pat cs

/-- Number of occurrences of `pat` in a string. -/
def countSub (pat s : String) : Nat :=
  countSubAux pat.data s.data

/-- Pointwise case-insensitive match of a pattern against a text segment of
the same length. -/
def ciMatchB : List Char → List Char → Bool
  | [], [] => true
  | p :: ps, c :: cs => ciEq p c && ciMatchB ps cs
  | _, _ => false

/-- The character immediately before a match: the last character of the text
before it, or (when the match starts the scanned text) the scan's `prev`. -/
def prevCharOf (prev : Option Char) (pre : List Char) : Option Char :=
  match pre.getLast? with
  | some x => some x
  | none => prev

/-- Declarative standalone-word occurrence: the text splits as
`pre ++ seg ++ post` where `seg` matches the pattern case-insensitively and
both neighbouring characters (if any) are non-word characters. -/
def occursWordFrom (pat : List Char) (prev : Option Char) (l : List Char) : Prop :=
  ∃ pre seg post, l = pre ++ seg ++ post ∧ ciMatchB pat seg = true ∧
    boundaryL (prevCharOf prev pre) = true ∧ boundaryR post = true

/-- A whole-word, case-insensitive occurrence of `pat` somewhere in `l`
(the claim-side notion for dependency detection). -/
def occursWord (pat l : List Char) : Prop :=
  occursWordFrom pat none l

/-- The loop invariant of Kahn's algorithm as implemented by
`topological_sort_ctes`: the emitted list and the queue share no duplicates,
every queued name has all its dependencies already emitted, every emitted
name had all its dependencies emitted before it, the in-degree table holds
each CTE's number of not-yet-emitted dependencies, and everything seen lives
in `allC`. -/
structure TopoInv (dm : List (List Char × List (List Char))) (allC : List (List Char))
    (ind : List (List Char × Int)) (queue out : List (List Char)) : Prop where
  nodup : (out ++ queue).Nodup
  qdeps : ∀ n ∈ queue, ∀ b ∈ depsOf dm n, b ∈ out
  odeps : ∀ u A v, out = u ++ A :: v → ∀ b ∈ depsOf dm A, b ∈ u
  ideg : ∀ c deps, (c, deps) ∈ dm →
    lookupInt ind c
      = (deps.length : Int) - ((deps.filter (fun b => decide (b ∈ out))).length : Int)
  subAll : ∀ n ∈ out ++ queue, n ∈ allC

/-! ## Helper lemmas -/

theorem inlineCteL_nil (name body : List Char) : inlineCteL [] name body = [] := rfl

theorem foldl_inlineStep_nil (sorted : List (List Char)) :
    ∀ (l : List (List Char)) (st : List Char × List (List Char × List Char)),
      st.1 = [] → (l.foldl (inlineStep sorted) st).1 = [] := by
  intro l
  induction l with
  | nil => intro st h; exact h
  | cons c t ih =>
    intro st h
    rw [List.foldl_cons]
    apply ih
    obtain ⟨fs, cm⟩ := st
    simp only at h
    subst h
    unfold inlineStep
    cases hb : lookupA cm c with
    | none => simp [hb]
    | some body => simp [hb, inlineCteL_nil]

theorem string_mk_inj {a b : List Char} (h : String.mk a = String.mk b) : a = b := by
  injection h

theorem data_ne_nil_of_ne_empty {w : String} (hw : w ≠ "") : w.data ≠ [] := by
  intro h
  apply hw
  cases w
  simp only at h
  subst h
  rfl

theorem space_not_word {c : Char} (h : isPySpace c = true) : isWordChar c = false := by
  unfold isPySpace at h
  simp only [Bool.or_eq_true, decide_eq_true_eq] at h
  rcases h with ((((h | h) | h) | h) | h) | h <;> subst h <;> decide

theorem word_not_space {c : Char} (h : isWordChar c = true) : isPySpace c = false := by
  cases hs : isPySpace c with
  | false => rfl
  | true => rw [space_not_word hs] at h; cases h

theorem takeWhile_space_words {l : List Char} (h : ∀ c ∈ l, isWordChar c = true) :
    l.takeWhile isPySpace = [] := by
  cases l with
  | nil => rfl
  | cons c cs =>
    simp [List.takeWhile_cons, word_not_space (h c (List.mem_cons_self c cs))]

theorem dropWhile_space_words {l : List Char} (h : ∀ c ∈ l, isWordChar c = true) :
    l.dropWhile isPySpace = l := by
  cases l with
  | nil => rfl
  | cons c cs =>
    simp [List.dropWhile_cons, word_not_space (h c (List.mem_cons_self c cs))]

theorem takeWhile_words_all {l : List Char} (h : ∀ c ∈ l, isWordChar c = true) :
    l.takeWhile isWordChar = l := by
  induction l with
  | nil => rfl
  | cons c cs ih =>
    simp [List.takeWhile_cons, h c (List.mem_cons_self c cs),
      ih (fun x hx => h x (List.mem_cons_of_mem c hx))]

theorem dropWhile_words_all {l : List Char} (h : ∀ c ∈ l, isWordChar c = true) :
    l.dropWhile isWordChar = [] := by
  induction l with
  | nil => rfl
  | cons c cs ih =>
    simp [List.dropWhile_cons, h c (List.mem_cons_self c cs),
      ih (fun x hx => h x (List.mem_cons_of_mem c hx))]

theorem takeWhile_nonspace_all {l : List Char} (h : ∀ c ∈ l, isPySpace c = false) :
    l.takeWhile (fun c => !isPySpace c) = l := by
  induction l with
  | nil => rfl
  | cons c cs ih =>
    simp [List.takeWhile_cons, h c (List.mem_cons_self c cs),
      ih (fun x hx => h x (List.mem_cons_of_mem c hx))]

theorem dropWhile_nonspace_all {l : List Char} (h : ∀ c ∈ l, isPySpace c = false) :
    l.dropWhile (fun c => !isPySpace c) = [] := by
  induction l with
  | nil => rfl
  | cons c cs ih =>
    simp [List.dropWhile_cons, h c (List.mem_cons_self c cs),
      ih (fun x hx => h x (List.mem_cons_of_mem c hx))]

theorem dropWhile_space_nonspace {l : List Char} (h : ∀ c ∈ l, isPySpace c = false) :
    l.dropWhile isPySpace = l := by
  cases l with
  | nil => rfl
  | cons c cs =>
    simp [List.dropWhile_cons, h c (List.mem_cons_self c cs)]

theorem takeWhile_append_of_all {p : Char → Bool} {a b : List Char}
    (h : ∀ c ∈ a, p c = true) : (a ++ b).takeWhile p = a ++ b.takeWhile p := by
  induction a with
  | nil => rfl
  | cons c cs ih =>
    simp [List.takeWhile_cons, h c (List.mem_cons_self c cs),
      ih (fun x hx => h x (List.mem_cons_of_mem c hx))]

theorem fixDivGo_nil (f : Nat) : fixDivGo f [] = [] := by
  cases f <;> rfl

theorem stripCI_suffix {pat l r : List Char} (h : stripCI pat l = some r) :
    ∃ s, l = s ++ r := by
  induction pat generalizing l with
  | nil =>
    simp only [stripCI, Option.some.injEq] at h
    exact ⟨[], by simp [h]⟩
  | cons p ps ih =>
    cases l with
    | nil => cases h
    | cons c cs =>
      by_cases hc : ciEq p c = true
      · simp only [stripCI, hc, if_true] at h
        obtain ⟨s, hs⟩ := ih h
        exact ⟨c :: s, by simp [hs]⟩
      · simp [stripCI, hc] at h

theorem scanPat2_words_none (name : List Char) (prev : Option Char) (l : List Char)
    (h : ∀ c ∈ l, isWordChar c = true) : scanPat2 name prev l = none := by
  induction l generalizing prev with
  | nil => rfl
  | cons c cs ih =>
    have hcs : ∀ x ∈ cs, isWordChar x = true := fun x hx => h x (List.mem_cons_of_mem c hx)
    have hat : tryPat2At name prev (c :: cs) = none := by
      unfold tryPat2At
      cases hb : boundaryL prev with
      | false => rfl
      | true =>
        cases hs : stripCI "FROM".data (c :: cs) with
        | none => simp [eatWordWs, hs]
        | some r =>
          obtain ⟨s, hsr⟩ := stripCI_suffix hs
          have hr : ∀ x ∈ r, isWordChar x = true := by
            intro x hx
            exact h x (by rw [hsr]; exact List.mem_append_right s hx)
          simp [eatWordWs, hs, takeWhile_space_words hr]
    simp [scanPat2, hat, ih (some c) hcs]

theorem mem_addIfNew {l : List (List Char)} {x y : List Char} :
    y ∈ addIfNew l x ↔ y ∈ l ∨ y = x := by
  unfold addIfNew
  by_cases h : x ∈ l
  · rw [if_pos h]
    constructor
    · exact fun hy => Or.inl hy
    · rintro (hy | rfl)
      · exact hy
      · exact h
  · rw [if_neg h]
    simp

theorem nodup_addIfNew {l : List (List Char)} {x : List Char} (h : l.Nodup) :
    (addIfNew l x).Nodup := by
  unfold addIfNew
  by_cases hx : x ∈ l
  · rwa [if_pos hx]
  · rw [if_neg hx]
    simp [List.nodup_append, h, hx]

theorem nodup_foldl_addIfNew : ∀ (xs acc : List (List Char)),
    acc.Nodup → (xs.foldl addIfNew acc).Nodup := by
  intro xs
  induction xs with
  | nil => intro acc h; exact h
  | cons x xt ih => intro acc h; exact ih _ (nodup_addIfNew h)

theorem mem_foldl_addIfNew : ∀ (xs acc : List (List Char)) (y : List Char),
    y ∈ xs.foldl addIfNew acc ↔ y ∈ acc ∨ y ∈ xs := by
  intro xs
  induction xs with
  | nil => intro acc y; simp
  | cons x xt ih =>
    intro acc y
    rw [List.foldl_cons, ih, mem_addIfNew]
    constructor
    · rintro ((hy | rfl) | hy)
      · exact Or.inl hy
      · exact Or.inr (by simp)
      · exact Or.inr (List.mem_cons_of_mem _ hy)
    · rintro (hy | hy)
      · exact Or.inl (Or.inl hy)
      · rcases List.mem_cons.mp hy with rfl | hy2
        · exact Or.inl (Or.inr rfl)
        · exact Or.inr hy2

theorem nodup_allCtesOf (dm : List (List Char × List (List Char))) :
    (allCtesOf dm).Nodup := by
  unfold allCtesOf
  have key : ∀ (l : List (List Char × List (List Char))) (acc : List (List Char)), acc.Nodup →
      (l.foldl (fun acc e => e.2.foldl addIfNew acc) acc).Nodup := by
    intro l
    induction l with
    | nil => intro acc h; exact h
    | cons e t ih => intro acc h; exact ih _ (nodup_foldl_addIfNew _ _ h)
  exact key dm _ (nodup_foldl_addIfNew _ _ List.nodup_nil)

theorem mem_allCtesOf {dm : List (List Char × List (List Char))} {y : List Char} :
    y ∈ allCtesOf dm ↔ y ∈ dm.map Prod.fst ∨ ∃ p ∈ dm, y ∈ p.2 := by
  unfold allCtesOf
  have key : ∀ (l : List (List Char × List (List Char))) (acc : List (List Char)),
      y ∈ l.foldl (fun acc e => e.2.foldl addIfNew acc) acc ↔ y ∈ acc ∨ ∃ p ∈ l, y ∈ p.2 := by
    intro l
    induction l with
    | nil => intro acc; simp
    | cons e t ih =>
      intro acc
      rw [List.foldl_cons, ih, mem_foldl_addIfNew]
      constructor
      · rintro ((hy | hy) | ⟨p, hp, hyp⟩)
        · exact Or.inl hy
        · exact Or.inr ⟨e, List.mem_cons_self e t, hy⟩
        · exact Or.inr ⟨p, List.mem_cons_of_mem e hp, hyp⟩
      · rintro (hy | ⟨p, hp, hyp⟩)
        · exact Or.inl (Or.inl hy)
        · rcases List.mem_cons.mp hp with rfl | hp2
          · exact Or.inl (Or.inr hyp)
          · exact Or.inr ⟨p, hp2, hyp⟩
  rw [key dm _, mem_foldl_addIfNew]
  simp

theorem lookupA_mapSelf (f : List Char → Int) : ∀ (l : List (List Char)) (k : List Char),
    lookupA (l.map (fun n => (n, f n))) k = if k ∈ l then some (f k) else none := by
  intro l
  induction l with
  | nil => intro k; simp [lookupA]
  | cons n t ih =>
    intro k
    simp only [List.map_cons, lookupA]
    by_cases h : n = k
    · subst h
      simp
    · have hkn : ¬(k = n) := fun he => h he.symm
      rw [if_neg h, ih]
      by_cases hk : k ∈ t <;> simp [hk, List.mem_cons, hkn]

theorem lookupA_eq_of_mem : ∀ (dm : List (List Char × List (List Char))) (c : List Char)
    (deps : List (List Char)),
    (dm.map Prod.fst).Nodup → (c, deps) ∈ dm → lookupA dm c = some deps := by
  intro dm
  induction dm with
  | nil => intro c deps _ h; cases h
  | cons e t ih =>
    intro c deps hkeys h
    obtain ⟨e1, e2⟩ := e
    rw [List.map_cons] at hkeys
    obtain ⟨h1e, hkt⟩ := List.nodup_cons.mp hkeys
    rcases List.mem_cons.mp h with he | h2
    · injection he with he1 he2
      subst he1
      subst he2
      simp [lookupA]
    · have hne : e1 ≠ c := by
        rintro rfl
        exact h1e (List.mem_map.mpr ⟨(e1, deps), h2, rfl⟩)
      simp only [lookupA, hne, if_false]
      exact ih c deps hkt h2

theorem depsOf_eq_of_mem {dm : List (List Char × List (List Char))} {c : List Char}
    {deps : List (List Char)} (hkeys : (dm.map Prod.fst).Nodup) (h : (c, deps) ∈ dm) :
    depsOf dm c = deps := by
  unfold depsOf
  rw [lookupA_eq_of_mem dm c deps hkeys h]
  rfl

theorem lookupInt_updateA_self : ∀ (ind : List (List Char × Int)) (k : List Char) (v : Int),
    lookupInt (updateA ind k v) k = v := by
  intro ind
  induction ind with
  | nil => intro k v; simp [updateA, lookupInt, lookupA]
  | cons e t ih =>
    intro k v
    obtain ⟨k', v'⟩ := e
    unfold updateA
    by_cases h : k' = k
    · rw [if_pos h]
      simp [lookupInt, lookupA]
    · rw [if_neg h]
      simp only [lookupInt, lookupA, h, if_false]
      simpa [lookupInt] using ih k v

theorem lookupInt_updateA_ne : ∀ (ind : List (List Char × Int)) {k c : List Char} (v : Int),
    c ≠ k → lookupInt (updateA ind k v) c = lookupInt ind c := by
  intro ind
  induction ind with
  | nil =>
    intro k c v hck
    have hkc : ¬(k = c) := fun he => hck he.symm
    simp [updateA, lookupInt, lookupA, hkc]
  | cons e t ih =>
    intro k c v hck
    obtain ⟨k', v'⟩ := e
    unfold updateA
    by_cases h : k' = k
    · rw [if_pos h]
      subst h
      have : ¬(k' = c) := fun he => hck (he.symm)
      simp [lookupInt, lookupA, this]
    · rw [if_neg h]
      by_cases h2 : k' = c
      · simp [lookupInt, lookupA, h2]
      · simp only [lookupInt, lookupA, h2, if_false]
        simpa [lookupInt] using ih v hck

theorem length_filter_split {α : Type} (p : α → Bool) (l : List α) :
    (l.filter p).length + (l.filter (fun a => !p a)).length = l.length := by
  induction l with
  | nil => rfl
  | cons a t ih =>
    by_cases h : p a = true
    · simp [List.filter_cons, h]
      omega
    · have h' : p a = false := by simpa using h
      simp [List.filter_cons, h']
      omega

theorem eq_singleton_of_length_one {α : Type} {l : List α} {x : α}
    (h : l.length = 1) (hx : x ∈ l) : l = [x] := by
  cases l with
  | nil => cases hx
  | cons a t =>
    cases t with
    | nil =>
      rcases List.mem_singleton.mp hx with rfl
      rfl
    | cons b t2 => simp at h

theorem append_singleton_split {α : Type} {out u v : List α} {node A : α}
    (h : out ++ [node] = u ++ A :: v) :
    (∃ v', out = u ++ A :: v' ∧ v = v' ++ [node]) ∨ (u = out ∧ A = node ∧ v = []) := by
  induction v using List.reverseRecOn with
  | nil =>
    obtain ⟨h1, h2⟩ := List.append_inj' h rfl
    injection h2 with h2a
    exact Or.inr ⟨h1.symm, h2a.symm, rfl⟩
  | append_singleton v'' x _ =>
    rw [show u ++ A :: (v'' ++ [x]) = (u ++ A :: v'') ++ [x] from by simp] at h
    obtain ⟨h1, h2⟩ := List.append_inj' h rfl
    injection h2 with h2a
    exact Or.inl ⟨v'', h1, by rw [h2a]⟩

theorem relaxGo_lookup_not (node : List Char) :
    ∀ (l : List (List Char × List (List Char))) (ind : List (List Char × Int))
      (q : List (List Char)) (c : List Char),
      (∀ deps, (c, deps) ∈ l → node ∉ deps) →
      lookupInt (relaxGo node l ind q).1 c = lookupInt ind c := by
  intro l
  induction l with
  | nil => intro ind q c _; rfl
  | cons e t ih =>
    intro ind q c h
    obtain ⟨a, ds⟩ := e
    simp only [relaxGo]
    by_cases hnd : node ∈ ds
    · rw [if_pos hnd]
      have hac : a ≠ c := by
        rintro rfl
        exact h ds (List.mem_cons_self _ _) hnd
      rw [ih _ _ c (fun deps hd => h deps (List.mem_cons_of_mem _ hd))]
      exact lookupInt_updateA_ne _ _ (Ne.symm hac)
    · rw [if_neg hnd]
      exact ih _ _ c (fun deps hd => h deps (List.mem_cons_of_mem _ hd))

theorem relaxGo_lookup_mem (node : List Char) :
    ∀ (l : List (List Char × List (List Char))) (ind : List (List Char × Int))
      (q : List (List Char)) (c : List Char) (deps : List (List Char)),
      (l.map Prod.fst).Nodup → (c, deps) ∈ l → node ∈ deps →
      lookupInt (relaxGo node l ind q).1 c = lookupInt ind c - 1 := by
  intro l
  induction l with
  | nil => intro ind q c deps _ h _; cases h
  | cons e t ih =>
    intro ind q c deps hk hmem hnode
    obtain ⟨a, ds⟩ := e
    rw [List.map_cons] at hk
    obtain ⟨ha, hkt⟩ := List.nodup_cons.mp hk
    simp only [relaxGo]
    rcases List.mem_cons.mp hmem with he | h2
    · injection he with he1 he2
      subst he1
      subst he2
      rw [if_pos hnode]
      have hnotk : ∀ deps', (c, deps') ∈ t → node ∉ deps' := by
        intro deps' hd
        exact absurd (List.mem_map.mpr ⟨(c, deps'), hd, rfl⟩) ha
      rw [relaxGo_lookup_not node t _ _ c hnotk]
      exact lookupInt_updateA_self _ _ _
    · have hac : a ≠ c := by
        rintro rfl
        exact ha (List.mem_map.mpr ⟨(a, deps), h2, rfl⟩)
      by_cases hnd : node ∈ ds
      · rw [if_pos hnd]
        rw [ih _ _ c deps hkt h2 hnode]
        rw [lookupInt_updateA_ne _ _ (Ne.symm hac)]
      · rw [if_neg hnd]
        exact ih _ _ c deps hkt h2 hnode

theorem relaxGo_snd (node : List Char) :
    ∀ (l : List (List Char × List (List Char))) (ind : List (List Char × Int))
      (q : List (List Char)),
      (l.map Prod.fst).Nodup →
      (relaxGo node l ind q).2
        = q ++ (l.filter (fun p => decide (node ∈ p.2) &&
            decide (lookupInt ind p.1 - 1 = 0))).map Prod.fst := by
  intro l
  induction l with
  | nil => intro ind q _; simp [relaxGo]
  | cons e t ih =>
    intro ind q hk
    obtain ⟨a, ds⟩ := e
    rw [List.map_cons] at hk
    obtain ⟨ha, hkt⟩ := List.nodup_cons.mp hk
    simp only [relaxGo]
    have hcong : t.filter (fun p => decide (node ∈ p.2) &&
          decide (lookupInt (updateA ind a (lookupInt ind a - 1)) p.1 - 1 = 0))
        = t.filter (fun p => decide (node ∈ p.2) && decide (lookupInt ind p.1 - 1 = 0)) := by
      apply List.filter_congr
      intro p hp
      have hpa : p.1 ≠ a := by
        intro hpe
        exact ha (by rw [← hpe]; exact List.mem_map.mpr ⟨p, hp, rfl⟩)
      rw [lookupInt_updateA_ne _ _ hpa]
    by_cases hnd : node ∈ ds
    · rw [if_pos hnd]
      by_cases hv : lookupInt ind a - 1 = 0
      · rw [if_pos hv, ih _ _ hkt, hcong]
        rw [show ((a, ds) :: t).filter (fun p => decide (node ∈ p.2) &&
              decide (lookupInt ind p.1 - 1 = 0))
            = (a, ds) :: t.filter (fun p => decide (node ∈ p.2) &&
              decide (lookupInt ind p.1 - 1 = 0)) from by
          simp [List.filter_cons, hnd, hv]]
        simp
      · rw [if_neg hv, ih _ _ hkt, hcong]
        rw [show ((a, ds) :: t).filter (fun p => decide (node ∈ p.2) &&
              decide (lookupInt ind p.1 - 1 = 0))
            = t.filter (fun p => decide (node ∈ p.2) &&
              decide (lookupInt ind p.1 - 1 = 0)) from by
          simp [List.filter_cons, hnd, hv]]
    · rw [if_neg hnd, ih _ _ hkt]
      rw [show ((a, ds) :: t).filter (fun p => decide (node ∈ p.2) &&
            decide (lookupInt ind p.1 - 1 = 0))
          = t.filter (fun p => decide (node ∈ p.2) &&
            decide (lookupInt ind p.1 - 1 = 0)) from by
        simp [List.filter_cons, hnd]]

theorem filter_mem_append_congr (deps out : List (List Char)) (node : List Char)
    (h : ∀ b ∈ deps, b ≠ node) :
    deps.filter (fun b => decide (b ∈ out ++ [node]))
      = deps.filter (fun b => decide (b ∈ out)) := by
  apply List.filter_congr
  intro b hb
  rw [decide_eq_decide]
  simp [List.mem_append, h b hb]

theorem filter_append_node_length {deps out : List (List Char)} {node : List Char}
    (hnd : deps.Nodup) (hmem : node ∈ deps) (hout : node ∉ out) :
    (deps.filter (fun b => decide (b ∈ out ++ [node]))).length
      = (deps.filter (fun b => decide (b ∈ out))).length + 1 := by
  induction deps with
  | nil => cases hmem
  | cons d t ih =>
    obtain ⟨hd, ht⟩ := List.nodup_cons.mp hnd
    rcases List.mem_cons.mp hmem with he | hm2
    · subst he
      have hcong := filter_mem_append_congr t out node (fun b hb hbe => hd (hbe ▸ hb))
      rw [List.filter_cons, List.filter_cons, if_pos (by simp), if_neg (by simp [hout]), hcong]
      simp
    · have hdn : d ≠ node := fun he => hd (he ▸ hm2)
      by_cases hdo : d ∈ out
      · have h1 : decide (d ∈ out ++ [node]) = true := by simp [List.mem_append, hdo]
        have h2 : decide (d ∈ out) = true := by simpa using hdo
        have := ih ht hm2
        simp only [List.filter_cons, h1, h2, if_true, List.length_cons]
        omega
      · have h1 : decide (d ∈ out ++ [node]) = false := by simp [List.mem_append, hdo, hdn]
        have h2 : decide (d ∈ out) = false := by simpa using hdo
        simp only [List.filter_cons, h1, h2, if_false]
        exact ih ht hm2

theorem topoStep {dm : List (List Char × List (List Char))} {allC : List (List Char)}
    (hkeys : (dm.map Prod.fst).Nodup) (hdeps : ∀ p ∈ dm, p.2.Nodup)
    (hKA : ∀ k ∈ dm.map Prod.fst, k ∈ allC)
    {ind : List (List Char × Int)} {node : List Char} {rest out : List (List Char)}
    (inv : TopoInv dm allC ind (node :: rest) out) :
    TopoInv dm allC (relaxGo node dm ind rest).1 (relaxGo node dm ind rest).2
      (out ++ [node]) := by
  have hq2 := relaxGo_snd node dm ind rest hkeys
  set nq : List (List Char) := (dm.filter (fun p => decide (node ∈ p.2) &&
    decide (lookupInt ind p.1 - 1 = 0))).map Prod.fst with hnq
  have hnodup := inv.nodup
  rw [List.nodup_append] at hnodup
  obtain ⟨hOutND, hQND, hDisj⟩ := hnodup
  have hnodeOut : node ∉ out := fun h => hDisj h (List.mem_cons_self _ _)
  obtain ⟨hnodeRest, hRestND⟩ := List.nodup_cons.mp hQND
  have hdepsNode : ∀ b ∈ depsOf dm node, b ∈ out := inv.qdeps node (List.mem_cons_self _ _)
  have hmemNewQ : ∀ n ∈ nq, ∃ deps, (n, deps) ∈ dm ∧ node ∈ deps ∧
      lookupInt ind n - 1 = 0 := by
    intro n hn
    rw [hnq] at hn
    obtain ⟨p, hp, hpe⟩ := List.mem_map.mp hn
    rw [List.mem_filter] at hp
    obtain ⟨p1, p2⟩ := p
    dsimp only at hpe
    subst hpe
    obtain ⟨hpdm, hcond⟩ := hp
    rw [Bool.and_eq_true, decide_eq_true_eq, decide_eq_true_eq] at hcond
    exact ⟨p2, hpdm, hcond.1, hcond.2⟩
  have hfull : ∀ (n : List Char) (deps : List (List Char)), (n, deps) ∈ dm →
      (∀ b ∈ deps, b ∈ out) → lookupInt ind n = 0 := by
    intro n deps hmem hsub
    have hidg := inv.ideg n deps hmem
    have hfe : deps.filter (fun b => decide (b ∈ out)) = deps := by
      apply List.filter_eq_self.mpr
      intro b hb
      simpa using hsub b hb
    rw [hidg, hfe]
    omega
  have hfresh : ∀ n ∈ nq, n ∉ out ∧ n ≠ node ∧ n ∉ rest := by
    intro n hn
    obtain ⟨deps, hmem, hnd, hz⟩ := hmemNewQ n hn
    have hdeq := depsOf_eq_of_mem hkeys hmem
    refine ⟨?_, ?_, ?_⟩
    · intro ho
      obtain ⟨u, v, huv⟩ := List.append_of_mem ho
      have hsubu := inv.odeps u n v huv
      have hall : ∀ b ∈ deps, b ∈ out := by
        intro b hb
        have hbu := hsubu b (by rw [hdeq]; exact hb)
        rw [huv]
        exact List.mem_append_left _ hbu
      have := hfull n deps hmem hall
      omega
    · rintro rfl
      exact hnodeOut (hdepsNode _ (by rw [hdeq]; exact hnd))
    · intro hr
      have hq := inv.qdeps n (List.mem_cons_of_mem _ hr)
      have hall : ∀ b ∈ deps, b ∈ out := fun b hb => hq b (by rw [hdeq]; exact hb)
      have := hfull n deps hmem hall
      omega
  have hnewdm : ∀ n ∈ nq, n ∈ dm.map Prod.fst := by
    intro n hn
    obtain ⟨deps, hmem, _, _⟩ := hmemNewQ n hn
    exact List.mem_map.mpr ⟨(n, deps), hmem, rfl⟩
  have hnewND : nq.Nodup := by
    rw [hnq]
    exact List.Nodup.sublist (List.Sublist.map _ (List.filter_sublist _)) hkeys
  refine ⟨?_, ?_, ?_, ?_, ?_⟩
  · -- nodup
    rw [hq2]
    have hXnd : ((out ++ [node]) ++ rest).Nodup := by
      have he : out ++ node :: rest = (out ++ [node]) ++ rest := by simp
      rw [← he]
      exact inv.nodup
    rw [List.nodup_append] at hXnd
    obtain ⟨hAnd, hRest2, hdisjAR⟩ := hXnd
    rw [show (out ++ [node]) ++ (rest ++ nq) = (out ++ [node]) ++ rest ++ nq from by simp]
    rw [List.nodup_append]
    refine ⟨by rw [List.nodup_append]; exact ⟨hAnd, hRest2, hdisjAR⟩, hnewND, ?_⟩
    intro x hxA hxq
    rcases List.mem_append.mp hxA with hxA2 | hxr
    · rcases List.mem_append.mp hxA2 with hxo | hxn
      · exact (hfresh x hxq).1 hxo
      · exact (hfresh x hxq).2.1 (List.mem_singleton.mp hxn)
    · exact (hfresh x hxq).2.2 hxr
  · -- qdeps
    rw [hq2]
    intro n hn b hb
    rcases List.mem_append.mp hn with hr | hq
    · exact List.mem_append_left _ (inv.qdeps n (List.mem_cons_of_mem _ hr) b hb)
    · obtain ⟨deps, hmem, hnd, hz⟩ := hmemNewQ n hq
      have hdeq := depsOf_eq_of_mem hkeys hmem
      rw [hdeq] at hb
      have hidg := inv.ideg n deps hmem
      have hnodup_deps : deps.Nodup := hdeps (n, deps) hmem
      rw [hidg] at hz
      have hcount : ((deps.filter (fun b => decide (b ∈ out))).length) + 1
          = deps.length := by omega
      have hsplit := length_filter_split (fun b => decide (b ∈ out)) deps
      have hlen1 : (deps.filter (fun b => !decide (b ∈ out))).length = 1 := by omega
      have hnodeIn : node ∈ deps.filter (fun b => !decide (b ∈ out)) := by
        rw [List.mem_filter]
        exact ⟨hnd, by simp [hnodeOut]⟩
      have heq := eq_singleton_of_length_one hlen1 hnodeIn
      by_cases hbo : b ∈ out
      · exact List.mem_append_left _ hbo
      · have hbIn : b ∈ deps.filter (fun b => !decide (b ∈ out)) := by
          rw [List.mem_filter]
          exact ⟨hb, by simp [hbo]⟩
        rw [heq] at hbIn
        rw [List.mem_singleton.mp hbIn]
        exact List.mem_append_right _ (List.mem_singleton.mpr rfl)
  · -- odeps
    intro u A v huv b hb
    rcases append_singleton_split huv with ⟨v', hsplit, _⟩ | ⟨hu, hA, _⟩
    · exact inv.odeps u A v' hsplit b hb
    · rw [hu]
      rw [hA] at hb
      exact hdepsNode b hb
  · -- ideg
    intro c deps hmem
    have hidg := inv.ideg c deps hmem
    have hnodup_deps : deps.Nodup := hdeps (c, deps) hmem
    by_cases hnd : node ∈ deps
    · rw [relaxGo_lookup_mem node dm ind rest c deps hkeys hmem hnd, hidg]
      rw [filter_append_node_length hnodup_deps hnd hnodeOut]
      push_cast
      omega
    · have hno : ∀ deps', (c, deps') ∈ dm → node ∉ deps' := by
        intro deps' hmem'
        have h1 := lookupA_eq_of_mem dm c deps hkeys hmem
        have h2 := lookupA_eq_of_mem dm c deps' hkeys hmem'
        rw [h1] at h2
        injection h2 with h2e
        rw [← h2e]
        exact hnd
      rw [relaxGo_lookup_not node dm ind rest c hno, hidg]
      rw [filter_mem_append_congr deps out node (fun b hb hbe => hnd (hbe ▸ hb))]
  · -- subAll
    rw [hq2]
    intro n hn
    rcases List.mem_append.mp hn with hA | hB
    · rcases List.mem_append.mp hA with ho | hnn
      · exact inv.subAll n (List.mem_append_left _ ho)
      · rw [List.mem_singleton.mp hnn]
        exact inv.subAll node (List.mem_append_right _ (List.mem_cons_self _ _))
    · rcases List.mem_append.mp hB with hr | hq
      · exact inv.subAll n (List.mem_append_right _ (List.mem_cons_of_mem _ hr))
      · exact hKA n (hnewdm n hq)

theorem topoLoop_props (dm : List (List Char × List (List Char))) (allC : List (List Char))
    (hkeys : (dm.map Prod.fst).Nodup) (hdeps : ∀ p ∈ dm, p.2.Nodup)
    (hKA : ∀ k ∈ dm.map Prod.fst, k ∈ allC) :
    ∀ (fuel : Nat) (ind : List (List Char × Int)) (queue out : List (List Char)),
      TopoInv dm allC ind queue out →
      (∀ u A v, topoLoop dm fuel ind queue out = u ++ A :: v → ∀ b ∈ depsOf dm A, b ∈ u)
      ∧ (∀ n ∈ topoLoop dm fuel ind queue out, n ∈ allC) := by
  intro fuel
  induction fuel with
  | zero =>
    intro ind queue out inv
    exact ⟨inv.odeps, fun n hn => inv.subAll n (List.mem_append_left _ hn)⟩
  | succ fuel ih =>
    intro ind queue out inv
    cases queue with
    | nil => exact ⟨inv.odeps, fun n hn => inv.subAll n (List.mem_append_left _ hn)⟩
    | cons node rest =>
      have hstep := topoStep hkeys hdeps hKA inv
      have hrec := ih _ _ _ hstep
      simpa [topoLoop] using hrec

theorem topoInit (dm : List (List Char × List (List Char)))
    (hkeys : (dm.map Prod.fst).Nodup) :
    TopoInv dm (allCtesOf dm) (indZeroOf dm) (queueZeroOf dm) [] := by
  have hQ : ∀ n ∈ queueZeroOf dm, n ∈ allCtesOf dm ∧ lookupInt (indZeroOf dm) n = 0 := by
    intro n hn
    unfold queueZeroOf at hn
    rw [List.mem_filter] at hn
    exact ⟨hn.1, by simpa using hn.2⟩
  have hLook : ∀ n ∈ allCtesOf dm,
      lookupInt (indZeroOf dm) n = ((depsOf dm n).length : Int) := by
    intro n hn
    unfold indZeroOf lookupInt
    rw [lookupA_mapSelf, if_pos hn]
    rfl
  refine ⟨?_, ?_, ?_, ?_, ?_⟩
  · simpa using List.Nodup.filter _ (nodup_allCtesOf dm)
  · intro n hn b hb
    obtain ⟨hna, hz⟩ := hQ n hn
    rw [hLook n hna] at hz
    have hlz : (depsOf dm n).length = 0 := by exact_mod_cast hz
    rw [List.length_eq_zero] at hlz
    rw [hlz] at hb
    cases hb
  · intro u A v h
    cases u <;> simp at h
  · intro c deps hmem
    have hcA : c ∈ allCtesOf dm :=
      mem_allCtesOf.mpr (Or.inl (List.mem_map.mpr ⟨(c, deps), hmem, rfl⟩))
    rw [hLook c hcA, depsOf_eq_of_mem hkeys hmem]
    have hfe : deps.filter (fun b => decide (b ∈ ([] : List (List Char)))) = [] := by
      simp
    rw [hfe]
    simp
  · intro n hn
    simp only [List.nil_append] at hn
    exact (hQ n hn).1

/-! ## Theorems for the claims -/

/-- C1: on `WITH a AS (SELECT 1 AS v) SELECT * FROM a`, the transform yields
`SELECT * FROM ((\nSELECT 1 AS v\n)) AS a`: the output has no standalone
top-level `WITH` keyword, and contains the literal body `SELECT 1 AS v`
wrapped in double parentheses and aliased as `a`. -/
theorem c1_single_cte_inlining :
    inline_all_ctes "WITH a AS (SELECT 1 AS v) SELECT * FROM a"
      = "SELECT * FROM ((\nSELECT 1 AS v\n)) AS a"
    ∧ topLevelWordOccurs "WITH" (inline_all_ctes "WITH a AS (SELECT 1 AS v) SELECT * FROM a") = false
    ∧ containsSub "((\nSELECT 1 AS v\n)) AS a"
        (inline_all_ctes "WITH a AS (SELECT 1 AS v) SELECT * FROM a") = true := by
  refine ⟨by rfl, by rfl, by rfl⟩

/-- C10: `inline_cte` requires no word boundary after the CTE name: with a CTE
named `a`, the reference `FROM ab` is still rewritten, substituting the body
and gluing the identifier's remainder `b` onto the synthesized alias `a`,
producing `AS ab`. -/
theorem c10_no_trailing_word_boundary :
    inline_cte "SELECT * FROM ab" "a" "SELECT 99"
      = "SELECT * FROM ((\nSELECT 99\n)) AS ab"
    ∧ containsSub "AS ab" (inline_cte "SELECT * FROM ab" "a" "SELECT 99") = true := by
  refine ⟨by rfl, by rfl⟩

/-- C6 counterexample: a single `inline_cte` call does NOT rewrite every
reference.  With CTE `a` referenced by two JOINs, only the first is inlined
(one `((` derived table in the output, one `SELECT 1` copy) and the second
reference survives verbatim as `JOIN a AS y`. -/
theorem c6_counterexample :
    inline_cte "SELECT * FROM t JOIN a AS x ON p JOIN a AS y ON q" "a" "SELECT 1"
      = "SELECT * FROM t JOIN ((\nSELECT 1\n)) AS x ON p JOIN a AS y ON q"
    ∧ containsSub "JOIN a AS y"
        (inline_cte "SELECT * FROM t JOIN a AS x ON p JOIN a AS y ON q" "a" "SELECT 1") = true
    ∧ countSub "SELECT 1"
        (inline_cte "SELECT * FROM t JOIN a AS x ON p JOIN a AS y ON q" "a" "SELECT 1") = 1 := by
  refine ⟨by rfl, by rfl, by rfl⟩

/-- C6 amended: both inlining patterns end in `(.*)` (DOTALL), so a match
always extends to the end of the text and each `re.sub` replaces at most the
single leftmost match; with two JOIN references to CTE `a`, the first is
rewritten (keeping its alias `x`) and the second is left untouched. -/
theorem c6_amended_first_match_only :
    inline_cte "SELECT * FROM t JOIN a AS x ON p JOIN a AS y ON q" "a" "SELECT 1"
      = "SELECT * FROM t JOIN ((\nSELECT 1\n)) AS x ON p JOIN a AS y ON q"
    ∧ containsSub "JOIN ((\nSELECT 1\n)) AS x ON p"
        (inline_cte "SELECT * FROM t JOIN a AS x ON p JOIN a AS y ON q" "a" "SELECT 1") = true
    ∧ countSub "((\n"
        (inline_cte "SELECT * FROM t JOIN a AS x ON p JOIN a AS y ON q" "a" "SELECT 1") = 1 := by
  refine ⟨by rfl, by rfl, by rfl⟩

/-- C7 counterexample: on `WITH a AS (SELECT 1)` (a `WITH` with no top-level
`SELECT` after it), the splitter does return `(remaining text, "")`, but the
transformation is NOT a division-guard no-op: the well-formed CTE is parsed,
inlined into the empty main query, and the whole with-block is discarded —
the output is the empty string, while a guard-only no-op would have returned
the full text. -/
theorem c7_counterexample :
    split_with_and_select "WITH a AS (SELECT 1)" = ("WITH a AS (SELECT 1)", "")
    ∧ inline_all_ctes "WITH a AS (SELECT 1)" = ""
    ∧ pyStripS (fix_division_by_zero "WITH a AS (SELECT 1)") = "WITH a AS (SELECT 1)"
    ∧ containsSub "WITH" (inline_all_ctes "WITH a AS (SELECT 1)") = false := by
  refine ⟨by rfl, by rfl, by rfl, by rfl⟩

/-- C2 counterexample: an input whose only standalone `WITH` is nested inside
parentheses (so there is no *top-level* standalone `WITH`) is still processed
by the CTE pipeline, and its transform differs from the trimmed division
guard of the input. -/
theorem c2_counterexample :
    topLevelWordOccurs "WITH" "SELECT * FROM (WITH b AS (SELECT 1) SELECT * FROM b) t" = false
    ∧ inline_all_ctes "SELECT * FROM (WITH b AS (SELECT 1) SELECT * FROM b) t"
        ≠ pyStripS (fix_division_by_zero "SELECT * FROM (WITH b AS (SELECT 1) SELECT * FROM b) t") := by
  refine ⟨by rfl, by decide⟩

/-- C2 (amended): for every input in which the standalone word `WITH` does not
occur at all in the whitespace-normalized text (the code searches the whole
text, not just depth zero), the transform equals the division guard of the
original input, trimmed. -/
theorem c2_amended_no_with_guard_only (x : String)
    (h : findWordAux "WITH".data none (normWs x.data) = none) :
    inline_all_ctes x = pyStripS (fix_division_by_zero x) := by
  unfold inline_all_ctes pyStripS fix_division_by_zero
  apply congrArg
  simp [inlineAllCtesL, extractCtesL, splitWithAndSelectL, h]

/-- Witness for C2 (amended) at `"SELECT 1 / 2"`. -/
theorem c2_amended_witness :
    findWordAux "WITH".data none (normWs "SELECT 1 / 2".data) = none
    ∧ inline_all_ctes "SELECT 1 / 2" = pyStripS (fix_division_by_zero "SELECT 1 / 2") :=
  ⟨by rfl, c2_amended_no_with_guard_only "SELECT 1 / 2" (by rfl)⟩

/-- C7 (amended): when the splitter returns `(remaining text, "")` (a `WITH`
was found but no depth-zero `SELECT` follows), the extracted main query is
empty; if no chunk of the with-block parses as a CTE the transform degrades to
the trimmed division guard of the whole input, but if any CTE does parse, the
CTEs are inlined into the empty main query and the output is empty — the
unmodified with-block is not preserved. -/
theorem c7_amended_empty_main (x w : String)
    (h : split_with_and_select x = (w, "")) (hw : w ≠ "") :
    (extract_ctes x).2 = ""
    ∧ inline_all_ctes x
        = (if (extract_ctes x).1 = [] then pyStripS (fix_division_by_zero x) else "") := by
  have h1 : String.mk (splitWithAndSelectL x.data).1 = w := congrArg Prod.fst h
  have h2 : String.mk (splitWithAndSelectL x.data).2 = "" := congrArg Prod.snd h
  have hp : splitWithAndSelectL x.data = (w.data, []) := by
    have e1 : (splitWithAndSelectL x.data).1 = w.data := by
      have := congrArg String.data h1
      simpa using this
    have e2 : (splitWithAndSelectL x.data).2 = [] := by
      have := congrArg String.data h2
      simpa using this
    exact Prod.ext e1 e2
  have hwd : w.data ≠ [] := data_ne_nil_of_ne_empty hw
  have hext : extractCtesL x.data
      = ((splitTopCommas (stripLeadingWith w.data)).foldl (fun m ch =>
          match parseChunk ch with
          | none => m
          | some nb => upsert m nb.1 nb.2) [], []) := by
    simp [extractCtesL, hp, hwd]
  constructor
  · simp [extract_ctes, hext]
  · rcases hc : (splitTopCommas (stripLeadingWith w.data)).foldl (fun m ch =>
        match parseChunk ch with
        | none => m
        | some nb => upsert m nb.1 nb.2) [] with _ | ⟨e, ctes⟩
    · have : (extract_ctes x).1 = [] := by simp [extract_ctes, hext, hc]
      rw [if_pos this]
      unfold inline_all_ctes pyStripS fix_division_by_zero
      apply congrArg
      simp [inlineAllCtesL, hext, hc]
    · have hne : (extract_ctes x).1 ≠ [] := by simp [extract_ctes, hext, hc]
      rw [if_neg hne]
      unfold inline_all_ctes
      have hmain : (inlineAllCtesL x.data) = [] := by
        simp [inlineAllCtesL, hext, hc]
        rw [foldl_inlineStep_nil _ _ _ rfl]
        rfl
      rw [hmain]

/-- Witness for C7 (amended) at `"WITH a AS (SELECT 1)"`. -/
theorem c7_amended_witness :
    (extract_ctes "WITH a AS (SELECT 1)").2 = ""
    ∧ inline_all_ctes "WITH a AS (SELECT 1)"
        = (if (extract_ctes "WITH a AS (SELECT 1)").1 = []
           then pyStripS (fix_division_by_zero "WITH a AS (SELECT 1)") else "") :=
  c7_amended_empty_main "WITH a AS (SELECT 1)" "WITH a AS (SELECT 1)" (by rfl) (by decide)

/-- C9: a `WITH` block that splits into one well-formed chunk and one chunk
that fails the `name AS (…)` shape yields a CTE map containing exactly the
well-formed definition; the malformed chunk is silently dropped (the
extraction function is total — no error is raised). -/
theorem c9_malformed_chunk_dropped (x : String) (w m c1 c2 n b : List Char)
    (hsplit : splitWithAndSelectL x.data = (w, m)) (hw : w ≠ [])
    (hchunks : splitTopCommas (stripLeadingWith w) = [c1, c2])
    (hc1 : parseChunk c1 = some (n, b)) (hc2 : parseChunk c2 = none) :
    extract_ctes x = ([(String.mk n, String.mk b)], String.mk m) := by
  simp [extract_ctes, extractCtesL, hsplit, hw, hchunks, hc1, hc2, upsert]

/-- Witness for C9: `WITH a AS (SELECT 1), b (SELECT 2) SELECT * FROM c`
keeps `a` and drops the `AS`-less chunk `b (SELECT 2)`. -/
theorem c9_witness :
    extract_ctes "WITH a AS (SELECT 1), b (SELECT 2) SELECT * FROM c"
      = ([("a", "SELECT 1")], "SELECT * FROM c") :=
  c9_malformed_chunk_dropped "WITH a AS (SELECT 1), b (SELECT 2) SELECT * FROM c"
    "WITH a AS (SELECT 1), b (SELECT 2)".data "SELECT * FROM c".data
    "a AS (SELECT 1)".data "b (SELECT 2)".data "a".data "SELECT 1".data
    (by rfl) (by decide) (by rfl) (by rfl) (by rfl)

/-- C5: when `inline_cte` rewrites a FROM/JOIN reference, the derived table is
aliased with the user-supplied alias whenever one follows the CTE name — for
any nonempty word-character alias `al`, `FROM a AS al` is rewritten to
`FROM ((\n body \n)) AS al`, not `AS a`; in particular `FROM a AS x` yields
alias `x`.  With no alias present, the alias is synthesized from the CTE name
itself. -/
theorem c5_alias_preservation (al : String) (h1 : al.data ≠ [])
    (h2 : ∀ c ∈ al.data, isWordChar c = true) :
    inline_cte ("FROM a AS " ++ al) "a" "SELECT 1" = "FROM ((\nSELECT 1\n)) AS " ++ al
    ∧ inline_cte "SELECT * FROM a AS x" "a" "SELECT 1"
        = "SELECT * FROM ((\nSELECT 1\n)) AS x"
    ∧ inline_cte "SELECT * FROM a" "a" "SELECT 1" = "SELECT * FROM ((\nSELECT 1\n)) AS a" := by
  refine ⟨?_, by rfl, by rfl⟩
  obtain ⟨ald⟩ := al
  have h1' : ald ≠ [] := h1
  have h2' : ∀ c ∈ ald, isWordChar c = true := h2
  have e1 : ald.takeWhile isPySpace = [] := takeWhile_space_words h2'
  have e2 : ald.dropWhile isPySpace = ald := dropWhile_space_words h2'
  have e3 : ald.takeWhile isWordChar = ald := takeWhile_words_all h2'
  have e4 : ald.dropWhile isWordChar = [] := dropWhile_words_all h2'
  have W : scanPat2 ['a'] (some ' ') ald = none := scanPat2_words_none ['a'] (some ' ') ald h2'
  show String.mk (inlineCteL ("FROM a AS ".data ++ ald) "a".data "SELECT 1".data)
      = String.mk ("FROM ((\nSELECT 1\n)) AS ".data ++ ald)
  apply congrArg String.mk
  have hL : "FROM a AS ".data = ['F', 'R', 'O', 'M', ' ', 'a', ' ', 'A', 'S', ' '] := by decide
  have hN : "a".data = ['a'] := by decide
  have hB : "SELECT 1".data = ['S', 'E', 'L', 'E', 'C', 'T', ' ', '1'] := by decide
  have hOut : "FROM ((\nSELECT 1\n)) AS ".data
      = ['F', 'R', 'O', 'M', ' ', '(', '(', '\n', 'S', 'E', 'L', 'E', 'C', 'T', ' ', '1',
         '\n', ')', ')', ' ', 'A', 'S', ' '] := by decide
  rw [hL, hN, hB, hOut]
  have A : scanPat1 ['a'] none (['F', 'R', 'O', 'M', ' ', 'a', ' ', 'A', 'S', ' '] ++ ald)
      = some ([], ['F', 'R', 'O', 'M', ' '], some ald, []) := by
    simp +decide [scanPat1, tryPat1At, joinAlternatives, eatKeyword, eatWordWs, stripCI,
      ciEq, stripName, matchAliasRest, boundaryL, e1, e2, e3, e4, h1']
    cases ald with
    | nil => exact absurd rfl h1'
    | cons c cs => exact ⟨by simp, h2' c (List.mem_cons_self c cs)⟩
  have B : scanPat2 ['a'] none
      (['F', 'R', 'O', 'M', ' ', '(', '(', '\n', 'S', 'E', 'L', 'E', 'C', 'T', ' ', '1',
        '\n', ')', ')', ' ', 'A', 'S', ' '] ++ ald) = none := by
    simp +decide [scanPat2, tryPat2At, eatWordWs, stripCI, ciEq, stripName,
      matchAliasRest, boundaryL, W]
  unfold inlineCteL
  rw [A]
  simp only [List.nil_append]
  have hRepl : buildRepl ['a'] ['S', 'E', 'L', 'E', 'C', 'T', ' ', '1'] ['F', 'R', 'O', 'M', ' ']
      (some ald) []
      = ['F', 'R', 'O', 'M', ' ', '(', '(', '\n', 'S', 'E', 'L', 'E', 'C', 'T', ' ', '1',
         '\n', ')', ')', ' ', 'A', 'S', ' '] ++ ald := by
    simp [buildRepl]
  rw [hRepl, B]

/-- Witness for C5 with the concrete alias `x`. -/
theorem c5_witness :
    inline_cte ("FROM a AS " ++ "x") "a" "SELECT 1" = "FROM ((\nSELECT 1\n)) AS " ++ "x" :=
  (c5_alias_preservation "x" (by decide) (by decide)).1

/-- C8: the division guard rewrites `left / right` so the divisor becomes
`NULLIF(right, 0)`: for any nonempty whitespace-free tokens `l` (slash-free)
and `r`, `fix_division_by_zero (l / r)` is `l / NULLIF(r, 0)`; the transform
of `SELECT x / y FROM t` contains `x / NULLIF(y, 0)`; and on every input the
pipeline's output is the division guard applied once to an entire final text,
then trimmed, as the last stage. -/
theorem c8_division_guard :
    inline_all_ctes "SELECT x / y FROM t" = "SELECT x / NULLIF(y, 0) FROM t"
    ∧ (∀ l r : String, l.data ≠ [] → r.data ≠ [] →
        (∀ c ∈ l.data, isPySpace c = false ∧ c ≠ '/') →
        (∀ c ∈ r.data, isPySpace c = false) →
        fix_division_by_zero (l ++ " / " ++ r) = l ++ " / NULLIF(" ++ r ++ ", 0)")
    ∧ (∀ x : String, ∃ y : List Char,
        inline_all_ctes x = String.mk (pyStrip (fixDivisionByZeroL y))) := by
  refine ⟨by rfl, ?_, ?_⟩
  · intro l r hl hr hlc hrc
    obtain ⟨ld⟩ := l
    obtain ⟨rd⟩ := r
    have hl' : ld ≠ [] := hl
    have hr' : rd ≠ [] := hr
    have hlns : ∀ x ∈ ld, isPySpace x = false := fun x hx => (hlc x hx).1
    have hrns : ∀ x ∈ rd, isPySpace x = false := hrc
    cases ld with
    | nil => exact absurd rfl hl'
    | cons c cs =>
      have hc0 : isPySpace c = false := hlns c (List.mem_cons_self c cs)
      have hcsns : ∀ x ∈ cs, isPySpace x = false :=
        fun x hx => hlns x (List.mem_cons_of_mem c hx)
      have ha : ∀ x ∈ c :: cs, (fun ch => !isPySpace ch) x = true := by
        intro x hx
        simp [hlns x hx]
      show String.mk (fixDivisionByZeroL (((c :: cs) ++ " / ".data) ++ rd))
          = String.mk (((c :: cs) ++ " / NULLIF(".data) ++ rd ++ ", 0)".data)
      apply congrArg String.mk
      have hsp : " / ".data = [' ', '/', ' '] := by decide
      have hnl : " / NULLIF(".data = [' ', '/', ' ', 'N', 'U', 'L', 'L', 'I', 'F', '('] := by
        decide
      rw [hsp, hnl]
      have hR : ((c :: cs) ++ ([' ', '/', ' '] ++ rd)).takeWhile (fun ch => !isPySpace ch)
          = c :: cs := by
        rw [takeWhile_append_of_all ha]
        simp +decide
      have hT : ((c :: cs) ++ ([' ', '/', ' '] ++ rd)).drop (c :: cs).length
          = [' ', '/', ' '] ++ rd := List.drop_left (c :: cs) _
      have hSlash : trySlash ([' ', '/', ' '] ++ rd) = some (rd, []) := by
        unfold trySlash
        simp +decide [dropWhile_space_nonspace hrns, takeWhile_nonspace_all hrns,
          dropWhile_nonspace_all hrns, hr']
      have hLens : tryDivLens (c :: cs) ([' ', '/', ' '] ++ rd) (cs.length + 1)
          = some (c :: cs, rd, []) := by
        rw [tryDivLens]
        rw [show (c :: cs).drop (cs.length + 1) = [] from List.drop_length (c :: cs)]
        rw [List.nil_append, hSlash]
        rw [show (c :: cs).take (cs.length + 1) = c :: cs from List.take_length (c :: cs)]
      have hDiv : tryDivAt ((c :: cs) ++ ([' ', '/', ' '] ++ rd)) = some (c :: cs, rd, []) := by
        unfold tryDivAt
        rw [hR]
        dsimp only
        rw [hT, List.length_cons]
        exact hLens
      have hlen : ((c :: cs) ++ ([' ', '/', ' '] ++ rd)).length
          = (cs ++ ([' ', '/', ' '] ++ rd)).length + 1 := by simp
      unfold fixDivisionByZeroL
      rw [List.append_assoc]
      rw [hlen]
      rw [show (c :: cs) ++ ([' ', '/', ' '] ++ rd) = c :: (cs ++ ([' ', '/', ' '] ++ rd))
        from rfl] at hDiv
      rw [show ((c :: cs) ++ ([' ', '/', ' '] ++ rd) : List Char)
          = c :: (cs ++ ([' ', '/', ' '] ++ rd)) from rfl]
      rw [fixDivGo, hc0]
      simp only [Bool.false_eq_true, if_false, hDiv, fixDivGo_nil]
      simp
  · intro x
    dsimp only [inline_all_ctes, inlineAllCtesL]
    by_cases h : (extractCtesL x.data).1 = []
    · rw [if_pos h]
      exact ⟨x.data, rfl⟩
    · rw [if_neg h]
      exact ⟨_, rfl⟩

/-- Witness for C8's universally quantified division-guard clause. -/
theorem c8_witness :
    fix_division_by_zero ("abc" ++ " / " ++ "de") = "abc" ++ " / NULLIF(" ++ "de" ++ ", 0)" :=
  c8_division_guard.2.1 "abc" "de" (by decide) (by decide) (by decide) (by decide)

theorem ciMatchB_nil_iff {seg : List Char} : ciMatchB [] seg = true ↔ seg = [] := by
  cases seg with
  | nil => simp [ciMatchB]
  | cons c cs => simp [ciMatchB]

theorem stripCI_eq_some_iff {pat l r : List Char} :
    stripCI pat l = some r ↔ ∃ seg, l = seg ++ r ∧ ciMatchB pat seg = true := by
  induction pat generalizing l with
  | nil =>
    simp only [stripCI, Option.some.injEq]
    constructor
    · intro h
      exact ⟨[], by simp [h], rfl⟩
    · rintro ⟨seg, hl, hm⟩
      rw [ciMatchB_nil_iff] at hm
      subst hm
      simpa using hl
  | cons p ps ih =>
    cases l with
    | nil =>
      simp only [stripCI]
      constructor
      · intro h; cases h
      · rintro ⟨seg, hl, hm⟩
        cases seg with
        | nil => simp [ciMatchB] at hm
        | cons s ss => simp at hl
    | cons c cs =>
      by_cases hc : ciEq p c = true
      · rw [show stripCI (p :: ps) (c :: cs) = stripCI ps cs from by simp [stripCI, hc], ih]
        constructor
        · rintro ⟨seg, h1, h2⟩
          exact ⟨c :: seg, by simp [h1], by simp [ciMatchB, hc, h2]⟩
        · rintro ⟨seg, h1, h2⟩
          cases seg with
          | nil => simp [ciMatchB] at h2
          | cons s ss =>
            injection h1 with h1a h1b
            subst h1a
            rw [ciMatchB, Bool.and_eq_true] at h2
            exact ⟨ss, h1b, h2.2⟩
      · rw [show stripCI (p :: ps) (c :: cs) = none from by simp [stripCI, hc]]
        constructor
        · intro h; cases h
        · rintro ⟨seg, h1, h2⟩
          cases seg with
          | nil => simp [ciMatchB] at h2
          | cons s ss =>
            injection h1 with h1a h1b
            subst h1a
            rw [ciMatchB, Bool.and_eq_true] at h2
            exact absurd h2.1 hc

theorem getLast?_cons_some (d : Char) (ds : List Char) : ∃ x, (d :: ds).getLast? = some x := by
  induction ds generalizing d with
  | nil => exact ⟨d, by simp⟩
  | cons e es ih =>
    obtain ⟨x, hx⟩ := ih e
    exact ⟨x, by rwa [List.getLast?_cons_cons]⟩

theorem prevCharOf_cons (prev : Option Char) (c : Char) (pre : List Char) :
    prevCharOf prev (c :: pre) = prevCharOf (some c) pre := by
  cases pre with
  | nil => simp [prevCharOf]
  | cons d ds =>
    obtain ⟨x, hx⟩ := getLast?_cons_some d ds
    simp [prevCharOf, List.getLast?_cons_cons, hx]

theorem findWordAux_isSome_iff (pat : List Char) (hpat : pat ≠ []) :
    ∀ (l : List Char) (prev : Option Char),
      (findWordAux pat prev l).isSome = true ↔ occursWordFrom pat prev l := by
  intro l
  induction l with
  | nil =>
    intro prev
    constructor
    · intro h; simp [findWordAux] at h
    · rintro ⟨pre, seg, post, hl, hm, _, _⟩
      have h0 : pre = [] ∧ seg = [] ∧ post = [] := by simpa using hl.symm
      obtain ⟨-, h3, -⟩ := h0
      subst h3
      cases pat with
      | nil => exact absurd rfl hpat
      | cons p ps => simp [ciMatchB] at hm
  | cons c cs ih =>
    intro prev
    by_cases hcond : (boundaryL prev &&
        (match stripCI pat (c :: cs) with
         | some r => boundaryR r
         | none => false)) = true
    · rw [show findWordAux pat prev (c :: cs) = some ([], c :: cs) from by
        simp [findWordAux, hcond]]
      simp only [Option.isSome_some, true_iff]
      rw [Bool.and_eq_true] at hcond
      obtain ⟨r, hsr, hbr⟩ : ∃ r, stripCI pat (c :: cs) = some r ∧ boundaryR r = true := by
        cases hs : stripCI pat (c :: cs) with
        | none => rw [hs] at hcond; exact absurd hcond.2 (by simp)
        | some r => exact ⟨r, rfl, by have := hcond.2; rwa [hs] at this⟩
      obtain ⟨seg, hseg, hmB⟩ := stripCI_eq_some_iff.mp hsr
      exact ⟨[], seg, r, by simpa using hseg, hmB, by simpa [prevCharOf] using hcond.1, hbr⟩
    · rw [show findWordAux pat prev (c :: cs)
          = (findWordAux pat (some c) cs).map (fun p => (c :: p.1, p.2)) from by
        simp [findWordAux, hcond]]
      rw [show ((findWordAux pat (some c) cs).map (fun p => (c :: p.1, p.2))).isSome
          = (findWordAux pat (some c) cs).isSome from by
        cases findWordAux pat (some c) cs <;> rfl]
      rw [ih (some c)]
      constructor
      · rintro ⟨pre, seg, post, h1, h2, h3, h4⟩
        exact ⟨c :: pre, seg, post, by simp [h1], h2, by rwa [prevCharOf_cons], h4⟩
      · rintro ⟨pre, seg, post, h1, h2, h3, h4⟩
        cases pre with
        | nil =>
          exfalso
          apply hcond
          have hs : stripCI pat (c :: cs) = some post :=
            stripCI_eq_some_iff.mpr ⟨seg, by simpa using h1, h2⟩
          rw [Bool.and_eq_true, hs]
          exact ⟨by simpa [prevCharOf] using h3, h4⟩
        | cons d pre' =>
          injection h1 with h1a h1b
          subst h1a
          exact ⟨pre', seg, post, h1b, h2, by rwa [prevCharOf_cons] at h3, h4⟩

theorem wordSearch_iff_occursWord {pat l : List Char} (hpat : pat ≠ []) :
    wordSearch pat l = true ↔ occursWord pat l :=
  findWordAux_isSome_iff pat hpat l none

/-- C4: the dependency map of `find_dependencies` has an edge A→B exactly when
A is a CTE with body `body`, B is another CTE of the map, B ≠ A, and B's name
occurs as a whole-word, case-insensitive match somewhere in `body`; in
particular no CTE ever depends on itself. -/
theorem c4_dependency_edges (ctes : List (List Char × List Char)) (A B : List Char)
    (hword : ∀ n ∈ ctes.map Prod.fst, n ≠ [] ∧ ∀ c ∈ n, isWordChar c = true) :
    ((∃ ds, (A, ds) ∈ findDependenciesL ctes ∧ B ∈ ds)
      ↔ (∃ body, (A, body) ∈ ctes ∧ B ∈ ctes.map Prod.fst ∧ B ≠ A ∧
          occursWord (B.map Char.toUpper) (body.map Char.toUpper)))
    ∧ (∀ n ds, (n, ds) ∈ findDependenciesL ctes → n ∉ ds) := by
  constructor
  · constructor
    · rintro ⟨ds, hds, hB⟩
      unfold findDependenciesL at hds
      rw [List.mem_filter] at hds
      obtain ⟨⟨pA, pBody⟩, hp, hpe⟩ := List.mem_map.mp hds.1
      simp only [Prod.mk.injEq] at hpe
      obtain ⟨hpe1, hpe2⟩ := hpe
      subst hpe1
      rw [← hpe2] at hB
      rw [List.mem_filter] at hB
      obtain ⟨hBnames, hBcond⟩ := hB
      rw [Bool.and_eq_true, decide_eq_true_eq] at hBcond
      have hBword := hword B hBnames
      have hBU : B.map Char.toUpper ≠ [] := by
        simpa using hBword.1
      refine ⟨pBody, hp, hBnames, hBcond.1, ?_⟩
      exact (wordSearch_iff_occursWord hBU).mp hBcond.2
    · rintro ⟨body, hbody, hBn, hBA, hocc⟩
      have hBword := hword B hBn
      have hBU : B.map Char.toUpper ≠ [] := by
        simpa using hBword.1
      have hBmem : B ∈ (ctes.map Prod.fst).filter
          (fun o => o ≠ A && wordSearch (o.map Char.toUpper) (body.map Char.toUpper)) := by
        rw [List.mem_filter]
        refine ⟨hBn, ?_⟩
        rw [Bool.and_eq_true, decide_eq_true_eq]
        exact ⟨hBA, (wordSearch_iff_occursWord hBU).mpr hocc⟩
      refine ⟨(ctes.map Prod.fst).filter
          (fun o => o ≠ A && wordSearch (o.map Char.toUpper) (body.map Char.toUpper)), ?_, hBmem⟩
      unfold findDependenciesL
      rw [List.mem_filter]
      constructor
      · exact List.mem_map.mpr ⟨(A, body), hbody, rfl⟩
      · cases hfe : (ctes.map Prod.fst).filter
            (fun o => o ≠ A && wordSearch (o.map Char.toUpper) (body.map Char.toUpper)) with
        | nil => rw [hfe] at hBmem; cases hBmem
        | cons x xs => simp
  · intro n ds hmem hn
    unfold findDependenciesL at hmem
    rw [List.mem_filter] at hmem
    obtain ⟨⟨pA, pBody⟩, hp, hpe⟩ := List.mem_map.mp hmem.1
    simp only [Prod.mk.injEq] at hpe
    obtain ⟨hpe1, hpe2⟩ := hpe
    subst hpe1
    rw [← hpe2] at hn
    rw [List.mem_filter] at hn
    obtain ⟨_, hncond⟩ := hn
    rw [Bool.and_eq_true, decide_eq_true_eq] at hncond
    exact hncond.1 rfl

/-- Witness for C4: in `{a ↦ SELECT 1, b ↦ SELECT * FROM a}`, the edge b→a
exists, so the characterization instantiates to the existence of b's body
containing a standalone `a`. -/
theorem c4_witness :
    ∃ body, ("b".data, body) ∈ [("a".data, "SELECT 1".data), ("b".data, "SELECT * FROM a".data)]
      ∧ "a".data ∈ [("a".data, "SELECT 1".data),
          ("b".data, "SELECT * FROM a".data)].map Prod.fst
      ∧ "a".data ≠ "b".data
      ∧ occursWord ("a".data.map Char.toUpper) (body.map Char.toUpper) :=
  (c4_dependency_edges [("a".data, "SELECT 1".data), ("b".data, "SELECT * FROM a".data)]
    "b".data "a".data (by decide)).1.mp ⟨["a".data], by decide, by decide⟩

/-- C3: the order produced by `topological_sort_ctes` puts every dependency
before its dependent — if A is in the output and A depends on B, then B is in
the output, strictly before A — and every member of a closed dependent set
(in particular every member of a dependency cycle, whose in-degree never
reaches zero) is excluded from the output entirely. -/
theorem c3_topological_order (dm : List (List Char × List (List Char)))
    (hkeys : (dm.map Prod.fst).Nodup) (hdeps : ∀ p ∈ dm, p.2.Nodup) :
    (∀ A B, A ∈ topologicalSortCtesL dm → B ∈ depsOf dm A →
      ∃ u v, topologicalSortCtesL dm = u ++ B :: v ∧ A ∈ v)
    ∧ (∀ S : List (List Char), (∀ a ∈ S, ∃ b ∈ S, b ∈ depsOf dm a) →
        ∀ n ∈ S, n ∉ topologicalSortCtesL dm) := by
  have hKA : ∀ k ∈ dm.map Prod.fst, k ∈ allCtesOf dm :=
    fun k hk => mem_allCtesOf.mpr (Or.inl hk)
  obtain ⟨hord, hall⟩ := topoLoop_props dm (allCtesOf dm) hkeys hdeps hKA
    ((queueZeroOf dm).length + ((indZeroOf dm).foldl (fun s e => s + e.2.toNat) 0) + 1)
    (indZeroOf dm) (queueZeroOf dm) [] (topoInit dm hkeys)
  have hid : topologicalSortCtesL dm
      = topoLoop dm
          ((queueZeroOf dm).length + ((indZeroOf dm).foldl (fun s e => s + e.2.toNat) 0) + 1)
          (indZeroOf dm) (queueZeroOf dm) [] := by
    unfold topologicalSortCtesL
    exact List.filter_eq_self.mpr (fun a ha => by simpa using hall a ha)
  have hord' : ∀ u A v, topologicalSortCtesL dm = u ++ A :: v → ∀ b ∈ depsOf dm A, b ∈ u := by
    rw [hid]
    exact hord
  constructor
  · intro A B hA hB
    obtain ⟨u, v, huv⟩ := List.append_of_mem hA
    have hBu : B ∈ u := hord' u A v huv B hB
    obtain ⟨u1, u2, hu⟩ := List.append_of_mem hBu
    refine ⟨u1, u2 ++ A :: v, ?_, ?_⟩
    · rw [huv, hu]
      simp
    · exact List.mem_append_right _ (List.mem_cons_self _ _)
  · intro S hS n hnS hnT
    have key : ∀ k : Nat, ∀ u A v, topologicalSortCtesL dm = u ++ A :: v →
        u.length = k → A ∉ S := by
      intro k
      induction k using Nat.strong_induction_on with
      | _ k ihk =>
        intro u A v hres hlen hAS
        obtain ⟨b, hbS, hbdep⟩ := hS A hAS
        have hbu : b ∈ u := hord' u A v hres b hbdep
        obtain ⟨u1, u2, hu⟩ := List.append_of_mem hbu
        have hres2 : topologicalSortCtesL dm = u1 ++ b :: (u2 ++ A :: v) := by
          rw [hres, hu]
          simp
        have hlt : u1.length < k := by
          rw [hu] at hlen
          simp [List.length_append] at hlen
          omega
        exact ihk u1.length hlt u1 b (u2 ++ A :: v) hres2 rfl hbS
    obtain ⟨u, v, huv⟩ := List.append_of_mem hnT
    exact key u.length u n v huv rfl hnS

/-- Witness for C3 on `{b ↦ {a}, a ↦ {}, c ↦ {c}}`: `a` comes before its
dependent `b`, and the self-cycle `c` is excluded. -/
theorem c3_witness :
    (∃ u v, topologicalSortCtesL
        [("b".data, ["a".data]), ("a".data, ([] : List (List Char))), ("c".data, ["c".data])]
      = u ++ "a".data :: v ∧ "b".data ∈ v)
    ∧ "c".data ∉ topologicalSortCtesL
        [("b".data, ["a".data]), ("a".data, ([] : List (List Char))), ("c".data, ["c".data])] :=
  ⟨(c3_topological_order _ (by decide) (by decide)).1 "b".data "a".data (by decide) (by decide),
   (c3_topological_order _ (by decide) (by decide)).2 ["c".data] (by decide) "c".data (by decide)⟩

end DECTEify
